import Mathlib

/-!
Verification of the RepoWhisperer markdown pipeline.

Shallow embedding of the functions in `src/utils/markdown_writer.py`
(`clean_llm_response`, `_fix_markdown_formatting`, `merge_responses`,
`generate_readme`, `validate_markdown`) and
`src/parser/prompt_builder.py` (`chunk_prompt`).

Strings are modelled as `List Char`.  Python's whitespace class is modelled
by its ASCII part (space, tab, newline, carriage return, vertical tab, form
feed); all inputs appearing in the claims are ASCII.  The regular-expression
substitutions of `_fix_markdown_formatting` are embedded as deterministic
scanners that reproduce Python `re.sub` semantics (leftmost scan,
non-overlapping matches, greedy/lazy quantifier backtracking resolved
explicitly for each concrete pattern).  Recursions that can consume more
than one character per step carry a fuel argument bounded by the input
length, so that every definition is executable by kernel reduction.
-/

/-- Python's `str` whitespace test (`\s`, `str.strip`, `str.split`),
restricted to the ASCII whitespace characters. -/
def isPySpace (c : Char) : Bool :=
  c == ' ' || c == '\t' || c == '\n' || c == '\r' || c == '\x0b' || c == '\x0c'

/-- `a.isPrefixOf b` for char lists, written out explicitly:
Python `str.startswith`. -/
def startsWithStr : List Char → List Char → Bool
  | [], _ => true
  | _ :: _, [] => false
  | p :: ps, c :: cs => p == c && startsWithStr ps cs

/-- Python `str.endswith`. -/
def endsWithStr (p s : List Char) : Bool :=
  startsWithStr p.reverse s.reverse

/-- Python's `in` substring test: `pat` occurs contiguously in `s`. -/
def containsSub (pat : List Char) : List Char → Bool
  | [] => startsWithStr pat []
  | c :: rest => startsWithStr pat (c :: rest) || containsSub pat rest

/-- Python `str.strip()`: drop whitespace from both ends. -/
def pyStrip (s : List Char) : List Char :=
  ((s.dropWhile isPySpace).reverse.dropWhile isPySpace).reverse

/-- Python `content.split('\n')`: split at every newline, keeping empty
pieces; the empty string yields `[""]`. -/
def pySplitNl : List Char → List (List Char)
  | [] => [[]]
  | c :: rest =>
    if c = '\n' then [] :: pySplitNl rest
    else
      match pySplitNl rest with
      | [] => [[c]]
      | l :: ls => (c :: l) :: ls

/-- Accumulator worker for Python `str.split()` (split on whitespace runs,
dropping empty tokens).  `acc` holds the current word reversed. -/
def wordsAux : List Char → List Char → List (List Char)
  | [], acc => if acc = [] then [] else [acc.reverse]
  | c :: rest, acc =>
    if isPySpace c then
      if acc = [] then wordsAux rest [] else acc.reverse :: wordsAux rest []
    else wordsAux rest (c :: acc)

/-- Python `prompt.split()`: the whitespace-separated words of a string. -/
def pySplitWs (s : List Char) : List (List Char) :=
  wordsAux s []

/-- Join a list of strings with single spaces (the spec's
"concatenating chunks with single spaces"). -/
def sjoin : List (List Char) → List Char
  | [] => []
  | [x] => x
  | x :: xs => x ++ ' ' :: sjoin xs

/-- Decimal digit character, as Python prints it. -/
def digitChar10 (d : Nat) : Char :=
  match d with
  | 0 => '0' | 1 => '1' | 2 => '2' | 3 => '3' | 4 => '4'
  | 5 => '5' | 6 => '6' | 7 => '7' | 8 => '8' | _ => '9'

/-- Fueled decimal printer (fuel bounds the recursion on `n / 10`). -/
def natReprAux : Nat → Nat → List Char
  | 0, _ => []
  | fuel + 1, n =>
    if n < 10 then [digitChar10 n]
    else natReprAux fuel (n / 10) ++ [digitChar10 (n % 10)]

/-- Decimal representation of a natural number, as Python's `str(i)`
inside an f-string. -/
def natRepr (n : Nat) : List Char :=
  natReprAux (n + 1) n

/-- Decimal parser, left inverse of `natRepr` (proof device). -/
def parseDec (l : List Char) : Nat :=
  l.foldl (fun a c => 10 * a + (c.toNat - 48)) 0

/-- The packing loop of `chunk_prompt` (`src/parser/prompt_builder.py`):
accumulate words into `current` separated by single spaces; when a word no
longer fits within `maxSize`, flush `current` as a chunk; flush the final
non-empty buffer after the loop. -/
def chunkLoop (maxSize : Nat) (chunks : List (List Char)) (current : List Char) :
    List (List Char) → List (List Char)
  | [] => if current = [] then chunks else chunks ++ [current]
  | w :: ws =>
    if current.length + w.length + 1 ≤ maxSize then
      chunkLoop maxSize chunks (if current = [] then w else current ++ ' ' :: w) ws
    else
      chunkLoop maxSize (if current = [] then chunks else chunks ++ [current]) w ws

/-- `PromptBuilder.chunk_prompt`: a prompt no longer than `maxSize` is
returned as a single chunk unmodified; otherwise its words are packed by
`chunkLoop`. -/
def chunk_prompt (maxSize : Nat) (prompt : List Char) : List (List Char) :=
  if prompt.length ≤ maxSize then [prompt]
  else chunkLoop maxSize [] [] (pySplitWs prompt)

example : chunk_prompt 3 "a b c d e".toList =
    ["a b".toList, "c d".toList, "e".toList] := by decide

example : chunk_prompt 3 [] = [[]] := by decide

/-!
`_fix_markdown_formatting` consists of four `re.sub` passes.  Each pattern
starts with a literal newline, so the scanners walk the string and attempt
a match at every `'\n'`; on success the replacement is emitted and the scan
resumes after the matched text, exactly as `re.sub` does.
-/

/-- Index of the first `'\n'` in a string, if any. -/
def idxOfNl : List Char → Option Nat
  | [] => none
  | c :: rest => if c = '\n' then some 0 else (idxOfNl rest).map (· + 1)

/-- Index of the last `'\n'` in a string, if any. -/
def lastNlIdx : List Char → Option Nat
  | [] => none
  | c :: rest =>
    match lastNlIdx rest with
    | some i => some (i + 1)
    | none => if c = '\n' then some 0 else none

/-- The negative lookahead `(?!\n)`: succeeds at end of string or when the
next character is not a newline. -/
def lookaheadNotNl : List Char → Bool
  | [] => true
  | c :: _ => c ≠ '\n'

/-- One backtracking attempt for pattern 1, `\n(#+\s+[^\n]+)\n(?!\n)`, with
the `\s+` group bound to the first `a` characters of `t` (the text after
the `#` run).  `[^\n]+` is then forced to run to the next newline, after
which the literal `\n` and the lookahead are checked.  Returns the index in
`t` of the newline that closes the match. -/
def headingTry (t : List Char) (a : Nat) : Option Nat :=
  match t.drop a with
  | [] => none
  | c :: rest =>
    if c = '\n' then none
    else
      match idxOfNl rest with
      | none => none
      | some d =>
        let nl := a + 1 + d
        if lookaheadNotNl (t.drop (nl + 1)) then some nl else none

/-- Greedy backtracking over the length of the `\s+` group: Python tries
the longest whitespace run first and shrinks it until a match succeeds. -/
def headingLoop (t : List Char) : Nat → Option Nat
  | 0 => none
  | a + 1 =>
    match headingTry t (a + 1) with
    | some nl => some nl
    | none => headingLoop t a

/-- Match of pattern 1 immediately after an initial `'\n'`: `u` must start
with a run of `#`, then whitespace, then non-newline text, then a newline
not followed by another newline.  Returns the number of characters of `u`
consumed by the match. -/
def headingMatchLen (u : List Char) : Option Nat :=
  let k := (u.takeWhile (· = '#')).length
  if k = 0 then none
  else
    let t := u.drop k
    let w := (t.takeWhile isPySpace).length
    if w = 0 then none
    else
      match headingLoop t w with
      | some nl => some (k + nl + 1)
      | none => none

/-- Scanner for pattern 1 (blank line after headings); the replacement
`\n\1\n\n` is the match followed by one extra newline. -/
def fixHeadingsAux : Nat → List Char → List Char
  | 0, s => s
  | _ + 1, [] => []
  | fuel + 1, c :: u =>
    if c = '\n' then
      match headingMatchLen u with
      | some L => '\n' :: (u.take L ++ '\n' :: fixHeadingsAux fuel (u.drop L))
      | none => '\n' :: fixHeadingsAux fuel u
    else c :: fixHeadingsAux fuel u

def fixHeadings (s : List Char) : List Char :=
  fixHeadingsAux s.length s

/-- Pattern 2, `\n(\s*[-*+]\s+[^\n]+)\n(?!\s*[-*+\n])` with replacement
`\n\1\n`: the replacement text is exactly the matched text (the lookahead
is zero-width), so this `re.sub` is the identity on every input. -/
def fixLists (s : List Char) : List Char := s

/-- The closing part of pattern 3 at the current position of the block
body: `\n```​` then the literal `\n` after the group and the `(?!\n)`
lookahead. -/
def closeMatchAt : List Char → Bool
  | '\n' :: '`' :: '`' :: '`' :: '\n' :: rest => lookaheadNotNl rest
  | _ => false

/-- Lazy `.*?`: the earliest body position where the closing fence pattern
matches. -/
def findClose : List Char → Option Nat
  | [] => none
  | c :: rest =>
    if closeMatchAt (c :: rest) then some 0
    else (findClose rest).map (· + 1)

/-- Match of pattern 3, `\n(```[^\n]*\n.*?\n```)\n(?!\n)` (DOTALL),
immediately after an initial `'\n'`.  Returns the number of characters of
`u` consumed. -/
def codeBlockMatchLen (u : List Char) : Option Nat :=
  match u with
  | '`' :: '`' :: '`' :: rest1 =>
    let lineLen := (rest1.takeWhile (· ≠ '\n')).length
    match rest1.drop lineLen with
    | '\n' :: body =>
      match findClose body with
      | some e => some (3 + lineLen + 1 + e + 5)
      | none => none
    | _ => none
  | _ => none

/-- Scanner for pattern 3 (blank line after fenced code blocks); the
replacement is the match followed by one extra newline. -/
def fixCodeBlocksAux : Nat → List Char → List Char
  | 0, s => s
  | _ + 1, [] => []
  | fuel + 1, c :: u =>
    if c = '\n' then
      match codeBlockMatchLen u with
      | some L => '\n' :: (u.take L ++ '\n' :: fixCodeBlocksAux fuel (u.drop L))
      | none => '\n' :: fixCodeBlocksAux fuel u
    else c :: fixCodeBlocksAux fuel u

def fixCodeBlocks (s : List Char) : List Char :=
  fixCodeBlocksAux s.length s

/-- Match of pattern 4, `\n\s*\n\s*\n`, immediately after an initial
`'\n'`: with greedy backtracking the match extends exactly to the last
newline inside the maximal whitespace run following the initial newline,
provided that run contains at least two newlines.  Returns the number of
characters of `u` consumed. -/
def blankMatchLen (u : List Char) : Option Nat :=
  let W := u.takeWhile isPySpace
  if 2 ≤ W.count '\n' then (lastNlIdx W).map (· + 1) else none

/-- Scanner for pattern 4 (collapse excess blank lines); the matched text
is replaced by `\n\n`. -/
def fixBlankLinesAux : Nat → List Char → List Char
  | 0, s => s
  | _ + 1, [] => []
  | fuel + 1, c :: u =>
    if c = '\n' then
      match blankMatchLen u with
      | some L => '\n' :: '\n' :: fixBlankLinesAux fuel (u.drop L)
      | none => '\n' :: fixBlankLinesAux fuel u
    else c :: fixBlankLinesAux fuel u

def fixBlankLines (s : List Char) : List Char :=
  fixBlankLinesAux s.length s

/-- `MarkdownWriter._fix_markdown_formatting`: the four substitution
passes, applied in source order. -/
def fix_markdown_formatting (content : List Char) : List Char :=
  fixBlankLines (fixCodeBlocks (fixLists (fixHeadings content)))

example : fix_markdown_formatting "\n# A x\n# B y\nc".toList =
    "\n# A x\n\n# B y\nc".toList := by decide

example :
    fix_markdown_formatting (fix_markdown_formatting "\n# A x\n# B y\nc".toList) =
    "\n# A x\n\n# B y\n\nc".toList := by decide

example : fix_markdown_formatting "a\n\n\n\n\nb".toList = "a\n\nb".toList := by decide

example : fix_markdown_formatting "a\n \n \n \nb".toList = "a\n\nb".toList := by decide

example : fix_markdown_formatting "a\n#\n\nx\ny".toList = "a\n#\n\nx\n\ny".toList := by
  decide

example : fix_markdown_formatting "a\n# \nq\n\nz".toList = "a\n# \nq\n\nz".toList := by
  decide

example : fix_markdown_formatting "x\n```py\ncode\n```\nmore".toList =
    "x\n```py\ncode\n```\n\nmore".toList := by decide

example : fix_markdown_formatting "```\na\n\n\n\nb\n```".toList =
    "```\na\n\nb\n```".toList := by decide

/-- The fixed boilerplate openings removed by `clean_llm_response`. -/
def prefixesToRemove : List (List Char) :=
  ["Here's the README.md content:".toList,
   "Here is the README.md:".toList,
   "# README.md".toList,
   "```markdown".toList,
   "```md".toList]

/-- The fixed boilerplate endings removed by `clean_llm_response`. -/
def suffixesToRemove : List (List Char) :=
  ["```".toList, "---".toList, "End of README".toList]

/-- `MarkdownWriter.clean_llm_response`: strip, remove each known
boilerplate opening and ending (re-stripping after each removal), then
apply the formatting repair pass. -/
def clean_llm_response (response : List Char) : List Char :=
  let c0 := pyStrip response
  let c1 := prefixesToRemove.foldl
    (fun c p => if startsWithStr p c then pyStrip (c.drop p.length) else c) c0
  let c2 := suffixesToRemove.foldl
    (fun c q => if endsWithStr q c then pyStrip (c.take (c.length - q.length)) else c) c1
  fix_markdown_formatting c2

/-- The zero-width split point of `re.split(r'\n(?=##\s)', ...)`: a newline
immediately followed by exactly two `#` and a whitespace character. -/
def startsNlHH : List Char → Bool
  | '\n' :: '#' :: '#' :: c :: _ => isPySpace c
  | _ => false

/-- Whether `startsNlHH` holds at any position of the string. -/
def containsNlHH : List Char → Bool
  | [] => false
  | c :: rest => startsNlHH (c :: rest) || containsNlHH rest

/-- `re.split(r'\n(?=##\s)', s)`: cut the string before every second-level
heading marker that follows a newline; the newline separator is dropped,
the heading marker stays with its section.  The result is never empty and
its first element is everything before the first split point. -/
def splitHH : List Char → List (List Char)
  | [] => [[]]
  | c :: rest =>
    if startsNlHH (c :: rest) then [] :: splitHH rest
    else
      match splitHH rest with
      | [] => [[c]]
      | sec :: secs => (c :: sec) :: secs

/-- The loop body of `merge_responses` for a response at index `i ≥ 1`:
if the cleaned text contains `"##"`, append every non-empty section after
the first split (each re-prefixed with `"\n\n## "`); otherwise append the
whole cleaned text after a blank line. -/
def mergeStep (merged : List Char) (response : List Char) : List Char :=
  let cleaned := clean_llm_response response
  if containsSub "##".toList cleaned then
    (splitHH cleaned).tail.foldl
      (fun m sec => if pyStrip sec ≠ [] then m ++ "\n\n## ".toList ++ sec else m) merged
  else merged ++ "\n\n".toList ++ cleaned

/-- `MarkdownWriter.merge_responses`: the first cleaned response seeds the
body, later responses are folded in by `mergeStep`, and the result gets a
final repair pass. -/
def merge_responses : List (List Char) → List Char
  | [] => fix_markdown_formatting []
  | r0 :: rest => fix_markdown_formatting (rest.foldl mergeStep (clean_llm_response r0))

/-- The body `generate_readme` builds before the title check: a single
response is cleaned directly, any other number of responses is merged. -/
def mainContentOf : List (List Char) → List Char
  | [r] => clean_llm_response r
  | rs => merge_responses rs

/-- The generation footer; the wall-clock timestamp is an input of the
model. -/
def footerFor (timestamp : List Char) : List Char :=
  "\n\n---\n*This README was generated by RepoWhisperer on ".toList ++
    timestamp ++ "*".toList

/-- `MarkdownWriter.generate_readme`: clean/merge the responses, prepend a
synthesized title when the body does not start with `'#'`, append the
footer, and repair once more. -/
def generate_readme (llmResponses : List (List Char))
    (projectName timestamp : List Char) : List Char :=
  let mainContent := mainContentOf llmResponses
  let titled :=
    if mainContent.head? = some '#' then mainContent
    else ('#' :: ' ' :: projectName) ++ ('\n' :: '\n' :: mainContent)
  fix_markdown_formatting (titled ++ footerFor timestamp)

/-- The issue message for a document that does not start with `'#'`. -/
def missingTitleMsg : List Char :=
  "Missing main title (should start with #)".toList

def contentEmptyMsg : List Char := "Content is empty".toList

def malformedMsg (i : Nat) : List Char :=
  "Line ".toList ++ natRepr i ++ ": Malformed header - missing space after #".toList

def unclosedMsg (i : Nat) : List Char :=
  "Line ".toList ++ natRepr i ++ ": Unclosed code block".toList

/-- `re.match(r'^#+\s+', line)`: at least one leading `#` followed by a
whitespace character. -/
def headerReMatch (line : List Char) : Bool :=
  let k := (line.takeWhile (· = '#')).length
  decide (1 ≤ k) &&
    (match (line.drop k).head? with
     | some c => isPySpace c
     | none => false)

/-- The malformed-header test of `validate_markdown`. -/
def malformedHeaderCond (line : List Char) : Bool :=
  startsWithStr "#".toList line && !startsWithStr "# ".toList line &&
    decide (1 < line.length) && !headerReMatch line

/-- A bare triple-backtick line (after stripping). -/
def isBareFence (line : List Char) : Bool :=
  pyStrip line == "```".toList

/-- The per-line loop of `validate_markdown`, with `i` the 1-based number
of the first line of `lines`.  A line is reported as an unclosed code
block when it is a bare fence and no strictly later line is a bare
fence. -/
def lineIssuesAux : Nat → List (List Char) → List (List Char)
  | _, [] => []
  | i, line :: rest =>
    (if malformedHeaderCond line then [malformedMsg i] else []) ++
    (if isBareFence line && !rest.any isBareFence then [unclosedMsg i] else []) ++
    lineIssuesAux (i + 1) rest

/-- `MarkdownWriter.validate_markdown`: empty content short-circuits;
otherwise a missing-title issue is reported when the document does not
start with `'#'`, followed by the per-line issues. -/
def validate_markdown (content : List Char) : List (List Char) :=
  if pyStrip content = [] then [contentEmptyMsg]
  else
    (if content.head? = some '#' then [] else [missingTitleMsg]) ++
      lineIssuesAux 1 (pySplitNl content)

example : merge_responses ["# Title\nBody1".toList, "## Extra\nBody2".toList] =
    "# Title\nBody1".toList := by decide

example : merge_responses ["# A".toList] = "# A".toList := by decide

example : merge_responses ["# A".toList, "x\n##\nmore".toList] =
    "# A\n\n## ##\n\nmore".toList := by decide

example : merge_responses ["# A".toList, "x ## y".toList] = "# A".toList := by decide

example : validate_markdown "# T\n```\ncode\n```".toList =
    ["Line 4: Unclosed code block".toList] := by decide

example : validate_markdown "# T\n```\ncode".toList =
    ["Line 2: Unclosed code block".toList] := by decide

example : generate_readme ["## Only".toList] "proj".toList "TS".toList =
    "## Only\n\n---\n*This README was generated by RepoWhisperer on TS*".toList := by
  decide

example : generate_readme ["hello".toList] "P".toList "TS".toList =
    "# P\n\nhello\n\n---\n*This README was generated by RepoWhisperer on TS*".toList := by
  decide

/-!  Spec-side predicates, written from the specification's words, used to
state the claims (not part of the embedded program). -/

/-- Spec wording for C2: the text starts with a level-1 heading, i.e. a
single heading marker followed by whitespace. -/
def startsWithLevel1Heading (s : List Char) : Bool :=
  match s with
  | '#' :: c :: _ => isPySpace c
  | _ => false

/-- Spec wording for C10: a line that begins with two heading markers
followed by a whitespace character. -/
def lineBeginsHHspace (line : List Char) : Bool :=
  match line with
  | '#' :: '#' :: c :: _ => isPySpace c
  | _ => false

/-!  Unfolding equations for the fueled scanners. -/

theorem fixHeadingsAux_nil (fuel : Nat) : fixHeadingsAux fuel [] = [] := by
  cases fuel <;> rfl

theorem fixHeadingsAux_cons_ne (fuel : Nat) (c : Char) (u : List Char)
    (hc : ¬ c = '\n') :
    fixHeadingsAux (fuel + 1) (c :: u) = c :: fixHeadingsAux fuel u := by
  simp [fixHeadingsAux, hc]

theorem fixHeadingsAux_nl (fuel : Nat) (u : List Char) :
    fixHeadingsAux (fuel + 1) ('\n' :: u) =
      match headingMatchLen u with
      | some L => '\n' :: (u.take L ++ '\n' :: fixHeadingsAux fuel (u.drop L))
      | none => '\n' :: fixHeadingsAux fuel u := by
  simp [fixHeadingsAux]

theorem fixCodeBlocksAux_nil (fuel : Nat) : fixCodeBlocksAux fuel [] = [] := by
  cases fuel <;> rfl

theorem fixCodeBlocksAux_cons_ne (fuel : Nat) (c : Char) (u : List Char)
    (hc : ¬ c = '\n') :
    fixCodeBlocksAux (fuel + 1) (c :: u) = c :: fixCodeBlocksAux fuel u := by
  simp [fixCodeBlocksAux, hc]

theorem fixCodeBlocksAux_nl (fuel : Nat) (u : List Char) :
    fixCodeBlocksAux (fuel + 1) ('\n' :: u) =
      match codeBlockMatchLen u with
      | some L => '\n' :: (u.take L ++ '\n' :: fixCodeBlocksAux fuel (u.drop L))
      | none => '\n' :: fixCodeBlocksAux fuel u := by
  simp [fixCodeBlocksAux]

theorem fixBlankLinesAux_nil (fuel : Nat) : fixBlankLinesAux fuel [] = [] := by
  cases fuel <;> rfl

theorem fixBlankLinesAux_cons_ne (fuel : Nat) (c : Char) (u : List Char)
    (hc : ¬ c = '\n') :
    fixBlankLinesAux (fuel + 1) (c :: u) = c :: fixBlankLinesAux fuel u := by
  simp [fixBlankLinesAux, hc]

theorem fixBlankLinesAux_nl (fuel : Nat) (u : List Char) :
    fixBlankLinesAux (fuel + 1) ('\n' :: u) =
      match blankMatchLen u with
      | some L => '\n' :: '\n' :: fixBlankLinesAux fuel (u.drop L)
      | none => '\n' :: fixBlankLinesAux fuel u := by
  simp [fixBlankLinesAux]

/-!  The repair scanners never change the first character of the text. -/

theorem fixHeadingsAux_head? (fuel : Nat) (s : List Char) :
    (fixHeadingsAux fuel s).head? = s.head? := by
  match fuel, s with
  | 0, s => rfl
  | _ + 1, [] => rfl
  | fuel + 1, c :: u =>
    by_cases hc : c = '\n'
    · subst hc
      rw [fixHeadingsAux_nl]
      cases headingMatchLen u <;> simp
    · rw [fixHeadingsAux_cons_ne fuel c u hc]
      simp

theorem fixCodeBlocksAux_head? (fuel : Nat) (s : List Char) :
    (fixCodeBlocksAux fuel s).head? = s.head? := by
  match fuel, s with
  | 0, s => rfl
  | _ + 1, [] => rfl
  | fuel + 1, c :: u =>
    by_cases hc : c = '\n'
    · subst hc
      rw [fixCodeBlocksAux_nl]
      cases codeBlockMatchLen u <;> simp
    · rw [fixCodeBlocksAux_cons_ne fuel c u hc]
      simp

theorem fixBlankLinesAux_head? (fuel : Nat) (s : List Char) :
    (fixBlankLinesAux fuel s).head? = s.head? := by
  match fuel, s with
  | 0, s => rfl
  | _ + 1, [] => rfl
  | fuel + 1, c :: u =>
    by_cases hc : c = '\n'
    · subst hc
      rw [fixBlankLinesAux_nl]
      cases blankMatchLen u <;> simp
    · rw [fixBlankLinesAux_cons_ne fuel c u hc]
      simp

theorem fix_markdown_formatting_head? (s : List Char) :
    (fix_markdown_formatting s).head? = s.head? := by
  unfold fix_markdown_formatting fixBlankLines fixCodeBlocks fixLists fixHeadings
  rw [fixBlankLinesAux_head?, fixCodeBlocksAux_head?, fixHeadingsAux_head?]

/-!  The repair scanners preserve the sequence of non-whitespace
characters: patterns 1 and 3 only add a newline after their match, and
pattern 4 replaces an all-whitespace match by two newlines. -/

def notWS (c : Char) : Bool := !isPySpace c

theorem take_append_of_le_len {α : Type} :
    ∀ (n : Nat) (l₁ l₂ : List α), n ≤ l₁.length → (l₁ ++ l₂).take n = l₁.take n := by
  intro n l₁
  induction l₁ generalizing n with
  | nil =>
    intro l₂ h
    simp only [List.length_nil, Nat.le_zero] at h
    subst h; rfl
  | cons a l ih =>
    intro l₂ h
    cases n with
    | zero => rfl
    | succ m =>
      simp only [List.cons_append, List.take_succ_cons]
      rw [ih m l₂ (by simpa using h)]

theorem lastNlIdx_lt_length :
    ∀ (l : List Char) (i : Nat), lastNlIdx l = some i → i < l.length := by
  intro l
  induction l with
  | nil => intro i h; simp [lastNlIdx] at h
  | cons c rest ih =>
    intro i h
    simp only [lastNlIdx] at h
    cases hr : lastNlIdx rest with
    | some j =>
      rw [hr] at h
      simp only [Option.some.injEq] at h
      have := ih j hr
      simp only [List.length_cons]
      omega
    | none =>
      rw [hr] at h
      by_cases hc : c = '\n'
      · simp [hc] at h
        simp only [List.length_cons]
        omega
      · simp [hc] at h

theorem blankMatchLen_le (u : List Char) (L : Nat)
    (h : blankMatchLen u = some L) : L ≤ (u.takeWhile isPySpace).length := by
  simp only [blankMatchLen] at h
  split at h
  · cases hr : lastNlIdx (u.takeWhile isPySpace) with
    | some j =>
      rw [hr] at h
      simp only [Option.map_some', Option.some.injEq] at h
      have := lastNlIdx_lt_length _ j hr
      omega
    | none => rw [hr] at h; simp at h
  · simp at h

theorem filter_take_of_ws (u : List Char) (L : Nat)
    (h : L ≤ (u.takeWhile isPySpace).length) :
    (u.take L).filter notWS = [] := by
  have h1 : u.take L = (u.takeWhile isPySpace).take L := by
    conv_lhs => rw [← List.takeWhile_append_dropWhile isPySpace u]
    exact take_append_of_le_len L _ _ h
  rw [h1, List.filter_eq_nil_iff]
  intro a ha
  have hws : isPySpace a = true :=
    List.mem_takeWhile_imp (List.mem_of_mem_take ha)
  simp [notWS, hws]

theorem fixHeadingsAux_filter (fuel : Nat) :
    ∀ (s : List Char),
      (fixHeadingsAux fuel s).filter notWS =
        s.filter notWS := by
  induction fuel with
  | zero => intro s; rfl
  | succ fuel ih =>
    intro s
    match s with
    | [] => rfl
    | c :: u =>
      by_cases hc : c = '\n'
      · subst hc
        have hnl : ¬ (notWS '\n' = true) := by decide
        rw [fixHeadingsAux_nl]
        cases hm : headingMatchLen u with
        | none => simp only [List.filter_cons_of_neg hnl, ih u]
        | some L =>
          simp only [List.filter_cons_of_neg hnl, List.filter_append, ih]
          rw [← List.filter_append, List.take_append_drop]
      · rw [fixHeadingsAux_cons_ne fuel c u hc]
        rw [List.filter_cons, List.filter_cons, ih]

theorem fixCodeBlocksAux_filter (fuel : Nat) :
    ∀ (s : List Char),
      (fixCodeBlocksAux fuel s).filter notWS =
        s.filter notWS := by
  induction fuel with
  | zero => intro s; rfl
  | succ fuel ih =>
    intro s
    match s with
    | [] => rfl
    | c :: u =>
      by_cases hc : c = '\n'
      · subst hc
        have hnl : ¬ (notWS '\n' = true) := by decide
        rw [fixCodeBlocksAux_nl]
        cases hm : codeBlockMatchLen u with
        | none => simp only [List.filter_cons_of_neg hnl, ih u]
        | some L =>
          simp only [List.filter_cons_of_neg hnl, List.filter_append, ih]
          rw [← List.filter_append, List.take_append_drop]
      · rw [fixCodeBlocksAux_cons_ne fuel c u hc]
        rw [List.filter_cons, List.filter_cons, ih]

theorem fixBlankLinesAux_filter (fuel : Nat) :
    ∀ (s : List Char),
      (fixBlankLinesAux fuel s).filter notWS =
        s.filter notWS := by
  induction fuel with
  | zero => intro s; rfl
  | succ fuel ih =>
    intro s
    match s with
    | [] => rfl
    | c :: u =>
      by_cases hc : c = '\n'
      · subst hc
        have hnl : ¬ (notWS '\n' = true) := by decide
        rw [fixBlankLinesAux_nl]
        cases hm : blankMatchLen u with
        | none => simp only [List.filter_cons_of_neg hnl, ih u]
        | some L =>
          simp only [List.filter_cons_of_neg hnl, ih]
          conv_rhs => rw [← List.take_append_drop L u]
          rw [List.filter_append, filter_take_of_ws u L (blankMatchLen_le u L hm),
            List.nil_append]
      · rw [fixBlankLinesAux_cons_ne fuel c u hc]
        rw [List.filter_cons, List.filter_cons, ih]

theorem fix_markdown_formatting_filter (s : List Char) :
    (fix_markdown_formatting s).filter notWS =
      s.filter notWS := by
  unfold fix_markdown_formatting fixBlankLines fixCodeBlocks fixLists fixHeadings
  rw [fixBlankLinesAux_filter, fixCodeBlocksAux_filter, fixHeadingsAux_filter]

/-!  The decimal printer is injective (via a parsing left inverse), and the
three issue messages of `validate_markdown` are pairwise distinct. -/

theorem digitChar10_toNat_sub (d : Nat) (h : d < 10) :
    (digitChar10 d).toNat - 48 = d := by
  interval_cases d <;> decide

theorem parseDec_append_digit (xs : List Char) (c : Char) :
    parseDec (xs ++ [c]) = 10 * parseDec xs + (c.toNat - 48) := by
  simp [parseDec, List.foldl_append]

theorem parseDec_natReprAux :
    ∀ (fuel n : Nat), n < fuel → parseDec (natReprAux fuel n) = n := by
  intro fuel
  induction fuel with
  | zero => intro n h; omega
  | succ fuel ih =>
    intro n h
    by_cases h10 : n < 10
    · simp only [natReprAux, if_pos h10]
      have : parseDec [digitChar10 n] = (digitChar10 n).toNat - 48 := by
        simp [parseDec]
      rw [this, digitChar10_toNat_sub n h10]
    · simp only [natReprAux, if_neg h10]
      rw [parseDec_append_digit]
      have hdiv : n / 10 < fuel := by
        have h1 : n / 10 < n := Nat.div_lt_self (by omega) (by omega)
        omega
      rw [ih (n / 10) hdiv, digitChar10_toNat_sub (n % 10) (Nat.mod_lt n (by omega))]
      omega

theorem natRepr_inj {a b : Nat} (h : natRepr a = natRepr b) : a = b := by
  have ha := parseDec_natReprAux (a + 1) a (by omega)
  have hb := parseDec_natReprAux (b + 1) b (by omega)
  unfold natRepr at h
  rw [← ha, ← hb, h]

theorem getLast?_append_right {α : Type} (l₁ l₂ : List α) (h : l₂ ≠ []) :
    (l₁ ++ l₂).getLast? = l₂.getLast? := by
  rw [List.getLast?_append]
  rw [List.getLast?_eq_getLast l₂ h]
  rfl

theorem unclosedMsg_getLast? (i : Nat) : (unclosedMsg i).getLast? = some 'k' := by
  unfold unclosedMsg
  rw [List.append_assoc, getLast?_append_right _ _ (by simp),
    getLast?_append_right _ _ (by decide)]
  decide

theorem malformedMsg_getLast? (i : Nat) : (malformedMsg i).getLast? = some '#' := by
  unfold malformedMsg
  rw [List.append_assoc, getLast?_append_right _ _ (by simp),
    getLast?_append_right _ _ (by decide)]
  decide

theorem unclosedMsg_ne_malformedMsg (i j : Nat) : unclosedMsg i ≠ malformedMsg j := by
  intro h
  have := congrArg List.getLast? h
  rw [unclosedMsg_getLast?, malformedMsg_getLast?] at this
  simp at this

theorem unclosedMsg_ne_missingTitleMsg (i : Nat) : unclosedMsg i ≠ missingTitleMsg := by
  intro h
  have := congrArg List.getLast? h
  rw [unclosedMsg_getLast?] at this
  rw [show missingTitleMsg.getLast? = some ')' from by decide] at this
  simp at this

theorem unclosedMsg_ne_contentEmptyMsg (i : Nat) : unclosedMsg i ≠ contentEmptyMsg := by
  intro h
  have := congrArg List.getLast? h
  rw [unclosedMsg_getLast?] at this
  rw [show contentEmptyMsg.getLast? = some 'y' from by decide] at this
  simp at this

theorem missingTitleMsg_ne_malformedMsg (j : Nat) : missingTitleMsg ≠ malformedMsg j := by
  intro h
  have := congrArg List.getLast? h
  rw [malformedMsg_getLast?] at this
  rw [show missingTitleMsg.getLast? = some ')' from by decide] at this
  simp at this

theorem missingTitleMsg_ne_unclosedMsg (j : Nat) : missingTitleMsg ≠ unclosedMsg j :=
  fun h => unclosedMsg_ne_missingTitleMsg j h.symm

theorem unclosedMsg_injective {i j : Nat} (h : unclosedMsg i = unclosedMsg j) : i = j := by
  unfold unclosedMsg at h
  have h1 := List.append_cancel_right h
  have h2 := List.append_cancel_left h1
  exact natRepr_inj h2

/-!  Characterization of the unclosed-code-block issues produced by the
per-line loop of `validate_markdown`. -/

theorem unclosed_mem_cons (line : List Char) (rest : List (List Char)) (i n : Nat) :
    unclosedMsg n ∈ lineIssuesAux i (line :: rest) ↔
      ((isBareFence line && !rest.any isBareFence) = true ∧ n = i) ∨
        unclosedMsg n ∈ lineIssuesAux (i + 1) rest := by
  simp only [lineIssuesAux, List.mem_append]
  constructor
  · rintro ((h | h) | h)
    · split at h
      · simp only [List.mem_singleton] at h
        exact absurd h (unclosedMsg_ne_malformedMsg n i)
      · simp at h
    · split at h
      · rename_i g
        simp only [List.mem_singleton] at h
        exact Or.inl ⟨g, unclosedMsg_injective h⟩
      · simp at h
    · exact Or.inr h
  · rintro (⟨g, rfl⟩ | h)
    · left; right; rw [if_pos g]; simp
    · right; exact h

theorem unclosedMsg_mem_lineIssuesAux :
    ∀ (ls : List (List Char)) (i n : Nat),
      unclosedMsg n ∈ lineIssuesAux i ls ↔
        ∃ j, n = i + j ∧ j < ls.length ∧ isBareFence (ls.getD j []) = true ∧
          ∀ l ∈ ls.drop (j + 1), isBareFence l = false := by
  intro ls
  induction ls with
  | nil => intro i n; simp [lineIssuesAux]
  | cons line rest ih =>
    intro i n
    rw [unclosed_mem_cons, ih (i + 1) n]
    constructor
    · rintro (⟨g, rfl⟩ | ⟨j, hn, hj, hb, hrest⟩)
      · rw [Bool.and_eq_true] at g
        refine ⟨0, by omega, by simp, by simpa using g.1, ?_⟩
        intro l hl
        have h2 : rest.any isBareFence = false := by
          cases hx : rest.any isBareFence
          · rfl
          · rw [hx] at g; simp at g
        rw [List.any_eq_false] at h2
        have := h2 l (by simpa using hl)
        simpa using this
      · refine ⟨j + 1, by omega, by simp; omega, by simpa using hb, ?_⟩
        intro l hl
        exact hrest l (by simpa using hl)
    · rintro ⟨j, hn, hj, hb, hrest⟩
      cases j with
      | zero =>
        left
        refine ⟨?_, by omega⟩
        rw [Bool.and_eq_true]
        constructor
        · simpa using hb
        · have h2 : rest.any isBareFence = false := by
            rw [List.any_eq_false]
            intro x hx
            have := hrest x (by simpa using hx)
            simp [this]
          rw [h2]; rfl
      | succ j =>
        right
        refine ⟨j, by omega, by simp at hj; omega, by simpa using hb, ?_⟩
        intro l hl
        exact hrest l (by simpa using hl)

theorem missingTitleMsg_not_mem_lineIssuesAux :
    ∀ (ls : List (List Char)) (i : Nat), missingTitleMsg ∉ lineIssuesAux i ls := by
  intro ls
  induction ls with
  | nil => intro i; simp [lineIssuesAux]
  | cons line rest ih =>
    intro i h
    simp only [lineIssuesAux, List.mem_append] at h
    rcases h with (h | h) | h
    · split at h
      · simp only [List.mem_singleton] at h
        exact missingTitleMsg_ne_malformedMsg i h
      · simp at h
    · split at h
      · simp only [List.mem_singleton] at h
        exact missingTitleMsg_ne_unclosedMsg i h
      · simp at h
    · exact ih (i + 1) h

/-!  Whitespace-only content cannot contain a bare fence line. -/

theorem dropWhile_eq_nil_all {p : Char → Bool} :
    ∀ l : List Char, l.dropWhile p = [] → ∀ c ∈ l, p c = true := by
  intro l
  induction l with
  | nil => simp
  | cons a l ih =>
    intro h c hc
    rw [List.dropWhile_cons] at h
    split at h
    · rename_i hp
      rcases List.mem_cons.mp hc with rfl | hc'
      · exact hp
      · exact ih h c hc'
    · simp at h

theorem pyStrip_eq_nil_all_ws (s : List Char) (h : pyStrip s = []) :
    ∀ c ∈ s, isPySpace c = true := by
  unfold pyStrip at h
  rw [List.reverse_eq_nil_iff] at h
  have h3 : ∀ c ∈ s.dropWhile isPySpace, isPySpace c = true := by
    intro c hc
    exact dropWhile_eq_nil_all _ h c (List.mem_reverse.mpr hc)
  intro c hc
  rw [← List.takeWhile_append_dropWhile isPySpace s] at hc
  rcases List.mem_append.mp hc with h4 | h4
  · exact List.mem_takeWhile_imp h4
  · exact h3 c h4

theorem mem_of_mem_dropWhile' {p : Char → Bool} {c : Char} {l : List Char}
    (h : c ∈ l.dropWhile p) : c ∈ l := by
  have heq := List.takeWhile_append_dropWhile p l
  rw [← heq]
  exact List.mem_append_right _ h

theorem mem_of_mem_pyStrip {c : Char} {s : List Char} (h : c ∈ pyStrip s) : c ∈ s := by
  unfold pyStrip at h
  rw [List.mem_reverse] at h
  have h1 := mem_of_mem_dropWhile' h
  rw [List.mem_reverse] at h1
  exact mem_of_mem_dropWhile' h1

theorem pySplitNl_ne_nil : ∀ s : List Char, pySplitNl s ≠ [] := by
  intro s
  induction s with
  | nil => simp [pySplitNl]
  | cons c rest ih =>
    simp only [pySplitNl]
    split
    · simp
    · split
      · simp
      · simp

theorem mem_of_mem_pySplitNl :
    ∀ (s l : List Char) (c : Char), l ∈ pySplitNl s → c ∈ l → c ∈ s := by
  intro s
  induction s with
  | nil =>
    intro l c hl hc
    simp [pySplitNl] at hl
    subst hl
    simp at hc
  | cons a rest ih =>
    intro l c hl hc
    simp only [pySplitNl] at hl
    by_cases ha : a = '\n'
    · rw [if_pos ha] at hl
      rcases List.mem_cons.mp hl with rfl | hl'
      · simp at hc
      · exact List.mem_cons_of_mem a (ih l c hl' hc)
    · rw [if_neg ha] at hl
      cases hr : pySplitNl rest with
      | nil => exact absurd hr (pySplitNl_ne_nil rest)
      | cons hd tl =>
        rw [hr] at hl
        rcases List.mem_cons.mp hl with rfl | hl'
        · rcases List.mem_cons.mp hc with rfl | hc'
          · exact List.mem_cons_self _ _
          · have hh : hd ∈ pySplitNl rest := by rw [hr]; exact List.mem_cons_self _ _
            exact List.mem_cons_of_mem a (ih hd c hh hc')
        · have hh : l ∈ pySplitNl rest := by
            rw [hr]; exact List.mem_cons_of_mem hd hl'
          exact List.mem_cons_of_mem a (ih l c hh hc)

theorem bareFence_has_tick {l : List Char} (h : isBareFence l = true) : '`' ∈ l := by
  unfold isBareFence at h
  have h2 : pyStrip l = "```".toList := eq_of_beq h
  apply mem_of_mem_pyStrip
  rw [h2]
  decide

theorem unclosed_validate_iff (content : List Char) (k : Nat) :
    unclosedMsg (k + 1) ∈ validate_markdown content ↔
      (k < (pySplitNl content).length ∧
        isBareFence ((pySplitNl content).getD k []) = true ∧
        ∀ l ∈ (pySplitNl content).drop (k + 1), isBareFence l = false) := by
  unfold validate_markdown
  by_cases hstrip : pyStrip content = []
  · rw [if_pos hstrip]
    constructor
    · intro h
      simp only [List.mem_singleton] at h
      exact absurd h (unclosedMsg_ne_contentEmptyMsg (k + 1))
    · rintro ⟨hk, hb, _⟩
      exfalso
      have htick := bareFence_has_tick hb
      have hmem : (pySplitNl content).getD k [] ∈ pySplitNl content := by
        rw [List.getD_eq_getElem?_getD]
        rw [List.getElem?_eq_getElem hk]
        exact List.getElem_mem hk
      have h5 : ('`' : Char) ∈ content :=
        mem_of_mem_pySplitNl content _ '`' hmem htick
      have h6 := pyStrip_eq_nil_all_ws content hstrip '`' h5
      simp [isPySpace] at h6
  · rw [if_neg hstrip]
    constructor
    · intro h
      rcases List.mem_append.mp h with h1 | h2
      · split at h1
        · simp at h1
        · simp only [List.mem_singleton] at h1
          exact absurd h1 (unclosedMsg_ne_missingTitleMsg (k + 1))
      · have h3 := (unclosedMsg_mem_lineIssuesAux _ 1 (k + 1)).mp h2
        obtain ⟨j, hn, hj, hb, hr⟩ := h3
        have hjk : j = k := by omega
        subst hjk
        exact ⟨hj, hb, hr⟩
    · rintro ⟨hk, hb, hr⟩
      apply List.mem_append_right
      exact (unclosedMsg_mem_lineIssuesAux _ 1 (k + 1)).mpr ⟨k, by omega, hk, hb, hr⟩

/-!  `generate_readme` always produces text whose first character is `#`. -/

theorem generate_readme_head? (rs : List (List Char)) (name ts : List Char) :
    (generate_readme rs name ts).head? = some '#' := by
  simp only [generate_readme]
  rw [fix_markdown_formatting_head?]
  by_cases h : (mainContentOf rs).head? = some '#'
  · rw [if_pos h, List.head?_append, h]
    rfl
  · rw [if_neg h]
    rfl

theorem head_mem {s : List Char} {c : Char} (h : s.head? = some c) : c ∈ s := by
  cases s with
  | nil => simp at h
  | cons a rest =>
    simp only [List.head?_cons, Option.some.injEq] at h
    subst h
    exact List.mem_cons_self _ _

theorem pyStrip_ne_nil_of_head {s : List Char} {c : Char}
    (hc : s.head? = some c) (hws : isPySpace c = false) : pyStrip s ≠ [] := by
  intro h
  have := pyStrip_eq_nil_all_ws s h c (head_mem hc)
  rw [hws] at this
  simp at this

/-!  When a string contains no `#`, pattern 1 is inert; when it contains no
backtick, pattern 3 is inert. -/

theorem takeWhile_hash_nil {u : List Char} (h : ('#' : Char) ∉ u) :
    u.takeWhile (· = '#') = [] := by
  cases u with
  | nil => rfl
  | cons c rest =>
    have hc : ¬ (c = '#') := fun e => h (e ▸ List.mem_cons_self c rest)
    simp [List.takeWhile_cons, hc]

theorem headingMatchLen_none_of_no_hash {u : List Char} (h : ('#' : Char) ∉ u) :
    headingMatchLen u = none := by
  simp [headingMatchLen, takeWhile_hash_nil h]

theorem fixHeadingsAux_no_hash :
    ∀ (fuel : Nat) (s : List Char), ('#' : Char) ∉ s → fixHeadingsAux fuel s = s := by
  intro fuel
  induction fuel with
  | zero => intro s _; rfl
  | succ fuel ih =>
    intro s h
    match s with
    | [] => rfl
    | c :: u =>
      have hu : ('#' : Char) ∉ u := fun hm => h (List.mem_cons_of_mem c hm)
      by_cases hc : c = '\n'
      · subst hc
        rw [fixHeadingsAux_nl, headingMatchLen_none_of_no_hash hu]
        rw [ih u hu]
      · rw [fixHeadingsAux_cons_ne fuel c u hc, ih u hu]

theorem codeBlockMatchLen_none_of_no_tick {u : List Char} (h : ('`' : Char) ∉ u) :
    codeBlockMatchLen u = none := by
  unfold codeBlockMatchLen
  split
  · rename_i rest1
    exact absurd (List.mem_cons_self '`' _) h
  · rfl

theorem fixCodeBlocksAux_no_tick :
    ∀ (fuel : Nat) (s : List Char), ('`' : Char) ∉ s → fixCodeBlocksAux fuel s = s := by
  intro fuel
  induction fuel with
  | zero => intro s _; rfl
  | succ fuel ih =>
    intro s h
    match s with
    | [] => rfl
    | c :: u =>
      have hu : ('`' : Char) ∉ u := fun hm => h (List.mem_cons_of_mem c hm)
      by_cases hc : c = '\n'
      · subst hc
        rw [fixCodeBlocksAux_nl, codeBlockMatchLen_none_of_no_tick hu]
        rw [ih u hu]
      · rw [fixCodeBlocksAux_cons_ne fuel c u hc, ih u hu]

/-!  One application of the repair pass collapses a run of three or more
newlines between two blocks to a single blank line. -/

theorem takeWhile_ws_replicate_b (n : Nat) :
    (List.replicate n '\n' ++ ['b']).takeWhile isPySpace = List.replicate n '\n' := by
  induction n with
  | zero =>
    have h1 : isPySpace 'b' = false := by decide
    simp [List.takeWhile_cons, h1]
  | succ n ih =>
    have h2 : isPySpace '\n' = true := by decide
    rw [List.replicate_succ, List.cons_append]
    simp [List.takeWhile_cons, h2, ih]

theorem lastNlIdx_replicate (n : Nat) :
    lastNlIdx (List.replicate (n + 1) '\n') = some n := by
  induction n with
  | zero => rfl
  | succ n ih =>
    have step : lastNlIdx ('\n' :: List.replicate (n + 1) '\n') =
        match lastNlIdx (List.replicate (n + 1) '\n') with
        | some i => some (i + 1)
        | none => if ('\n' : Char) = '\n' then some 0 else none := rfl
    rw [List.replicate_succ, step, ih]

theorem blankMatchLen_replicate_b (m : Nat) :
    blankMatchLen (List.replicate (m + 2) '\n' ++ ['b']) = some (m + 2) := by
  simp only [blankMatchLen, takeWhile_ws_replicate_b]
  have hcount : (List.replicate (m + 2) '\n').count '\n' = m + 2 := by
    simp [List.count_replicate_self]
  rw [hcount, if_pos (by omega), show m + 2 = (m + 1) + 1 from rfl,
    lastNlIdx_replicate (m + 1)]
  rfl

theorem fixBlank_collapse (m : Nat) :
    fixBlankLines ('a' :: (List.replicate (m + 3) '\n' ++ ['b'])) = "a\n\nb".toList := by
  unfold fixBlankLines
  have hlen : ('a' :: (List.replicate (m + 3) '\n' ++ ['b'])).length = (m + 4) + 1 := by
    simp
  rw [hlen]
  rw [fixBlankLinesAux_cons_ne _ _ _ (by decide)]
  rw [show List.replicate (m + 3) '\n' = '\n' :: List.replicate (m + 2) '\n' from rfl]
  rw [List.cons_append]
  rw [show m + 4 = (m + 3) + 1 from rfl]
  rw [fixBlankLinesAux_nl]
  rw [blankMatchLen_replicate_b]
  simp only []
  rw [List.drop_left' (by simp)]
  rw [show m + 3 = (m + 2) + 1 from rfl]
  rw [fixBlankLinesAux_cons_ne _ _ _ (by decide)]
  rw [fixBlankLinesAux_nil]
  rfl

/-!  Word-level properties of `pySplitWs` and `chunkLoop`. -/

theorem wordsAux_good :
    ∀ (s acc : List Char), (∀ c ∈ acc, isPySpace c = false) →
      ∀ w ∈ wordsAux s acc, w ≠ [] ∧ ∀ c ∈ w, isPySpace c = false := by
  intro s
  induction s with
  | nil =>
    intro acc hacc w hw
    simp only [wordsAux] at hw
    split at hw
    · simp at hw
    · rename_i hne
      simp only [List.mem_singleton] at hw
      subst hw
      refine ⟨by simpa using hne, ?_⟩
      intro c hc
      exact hacc c (List.mem_reverse.mp hc)
  | cons a rest ih =>
    intro acc hacc w hw
    simp only [wordsAux] at hw
    by_cases ha : isPySpace a = true
    · rw [if_pos ha] at hw
      split at hw
      · exact ih [] (by simp) w hw
      · rename_i hne
        rcases List.mem_cons.mp hw with rfl | hw'
        · refine ⟨by simpa using hne, ?_⟩
          intro c hc
          exact hacc c (List.mem_reverse.mp hc)
        · exact ih [] (by simp) w hw'
    · rw [if_neg ha] at hw
      refine ih (a :: acc) ?_ w hw
      intro c hc
      rcases List.mem_cons.mp hc with rfl | hc'
      · simpa using ha
      · exact hacc c hc'

theorem wordsAux_append_word :
    ∀ (w : List Char), (∀ c ∈ w, isPySpace c = false) →
      ∀ (s acc : List Char), wordsAux (w ++ s) acc = wordsAux s (w.reverse ++ acc) := by
  intro w
  induction w with
  | nil => intro _ s acc; simp
  | cons a w' ih =>
    intro hw s acc
    have ha : isPySpace a = false := hw a (List.mem_cons_self _ _)
    rw [List.cons_append]
    rw [show wordsAux (a :: (w' ++ s)) acc = wordsAux (w' ++ s) (a :: acc) from by
      simp [wordsAux, ha]]
    rw [ih (fun c hc => hw c (List.mem_cons_of_mem a hc)) s (a :: acc)]
    simp [List.reverse_cons, List.append_assoc]

theorem pySplitWs_word_space (w t : List Char) (hw : w ≠ [])
    (hws : ∀ c ∈ w, isPySpace c = false) :
    pySplitWs (w ++ ' ' :: t) = w :: pySplitWs t := by
  unfold pySplitWs
  rw [wordsAux_append_word w hws (' ' :: t) []]
  have h1 : isPySpace ' ' = true := by decide
  have h2 : w.reverse ++ [] ≠ [] := by simpa using hw
  simp [wordsAux, h1, h2, hw]

theorem pySplitWs_single (w : List Char) (hw : w ≠ [])
    (hws : ∀ c ∈ w, isPySpace c = false) : pySplitWs w = [w] := by
  unfold pySplitWs
  have h := wordsAux_append_word w hws [] []
  rw [List.append_nil] at h
  rw [h]
  have h2 : w.reverse ++ [] ≠ [] := by simpa using hw
  simp [wordsAux, h2, hw]

theorem pySplitWs_sjoin :
    ∀ (gs : List (List Char)),
      (∀ w ∈ gs, w ≠ [] ∧ ∀ c ∈ w, isPySpace c = false) →
      pySplitWs (sjoin gs) = gs := by
  intro gs
  induction gs with
  | nil => intro _; rfl
  | cons w ws ih =>
    intro h
    have hw := h w (List.mem_cons_self _ _)
    cases ws with
    | nil => exact pySplitWs_single w hw.1 hw.2
    | cons w2 ws2 =>
      rw [show sjoin (w :: w2 :: ws2) = w ++ ' ' :: sjoin (w2 :: ws2) from rfl]
      rw [pySplitWs_word_space w _ hw.1 hw.2]
      rw [ih (fun x hx => h x (List.mem_cons_of_mem w hx))]

theorem sjoin_append :
    ∀ (a b : List (List Char)), a ≠ [] → b ≠ [] →
      sjoin (a ++ b) = sjoin a ++ ' ' :: sjoin b := by
  intro a
  induction a with
  | nil => intro b h _; exact absurd rfl h
  | cons x a' ih =>
    intro b _ hb
    cases a' with
    | nil =>
      cases b with
      | nil => exact absurd rfl hb
      | cons y b' => rfl
    | cons x2 a'' =>
      rw [List.cons_append]
      rw [show sjoin (x :: (x2 :: a'' ++ b)) = x ++ ' ' :: sjoin (x2 :: a'' ++ b) from by
        rw [List.cons_append]; rfl]
      rw [ih b (by simp) hb]
      rw [show sjoin (x :: x2 :: a'') = x ++ ' ' :: sjoin (x2 :: a'') from rfl]
      simp [List.append_assoc]

theorem sjoin_map_sjoin :
    ∀ (gss : List (List (List Char))), (∀ g ∈ gss, g ≠ []) →
      sjoin (gss.map sjoin) = sjoin gss.flatten := by
  intro gss
  induction gss with
  | nil => intro _; rfl
  | cons g gss' ih =>
    intro h
    cases gss' with
    | nil => simp [sjoin]
    | cons g2 gss'' =>
      have hg := h g (List.mem_cons_self _ _)
      have hg2 : g2 ≠ [] := h g2 (by simp)
      have hrest : (g2 :: gss'').flatten ≠ [] := by
        rw [List.flatten_cons]
        cases g2 with
        | nil => exact absurd rfl hg2
        | cons z zs => simp
      rw [List.map_cons]
      rw [show sjoin (sjoin g :: (g2 :: gss'').map sjoin) =
          sjoin g ++ ' ' :: sjoin ((g2 :: gss'').map sjoin) from by
        rw [List.map_cons]; rfl]
      rw [ih (fun x hx => h x (List.mem_cons_of_mem g hx))]
      conv_rhs => rw [List.flatten_cons]
      rw [sjoin_append g _ hg hrest]

theorem sjoin_ne_nil (g : List (List Char)) (hne : g ≠ [])
    (hg : ∀ w ∈ g, w ≠ []) : sjoin g ≠ [] := by
  cases g with
  | nil => exact absurd rfl hne
  | cons w ws =>
    cases ws with
    | nil => exact hg w (List.mem_cons_self _ _)
    | cons w2 ws2 =>
      rw [show sjoin (w :: w2 :: ws2) = w ++ ' ' :: sjoin (w2 :: ws2) from rfl]
      simp

theorem chunkLoop_words (M : Nat) :
    ∀ (ws : List (List Char)) (gss : List (List (List Char)))
      (gcur : List (List Char)),
      (∀ w ∈ ws, w ≠ [] ∧ ∀ c ∈ w, isPySpace c = false) →
      (∀ g ∈ gss, g ≠ [] ∧ ∀ w ∈ g, w ≠ []) →
      (∀ w ∈ gcur, w ≠ []) →
      ∃ gss' : List (List (List Char)),
        chunkLoop M (gss.map sjoin) (sjoin gcur) ws = List.map sjoin gss' ∧
        List.flatten gss' = gss.flatten ++ gcur ++ ws ∧
        ∀ g ∈ gss', g ≠ [] ∧ ∀ w ∈ g, w ≠ [] := by
  intro ws
  induction ws with
  | nil =>
    intro gss gcur _ hgss hgcur
    by_cases hc : gcur = []
    · subst hc
      refine ⟨gss, ?_, by simp, hgss⟩
      simp [chunkLoop, sjoin]
    · have hne : sjoin gcur ≠ [] := sjoin_ne_nil gcur hc hgcur
      refine ⟨gss ++ [gcur], ?_, ?_, ?_⟩
      · simp only [chunkLoop, if_neg hne, List.map_append, List.map_cons, List.map_nil]
      · simp
      · intro g hg
        rcases List.mem_append.mp hg with h1 | h1
        · exact hgss g h1
        · simp only [List.mem_singleton] at h1
          subst h1
          exact ⟨hc, hgcur⟩
  | cons w ws' ih =>
    intro gss gcur hws hgss hgcur
    have hw := hws w (List.mem_cons_self _ _)
    have hws' : ∀ x ∈ ws', x ≠ [] ∧ ∀ c ∈ x, isPySpace c = false :=
      fun x hx => hws x (List.mem_cons_of_mem w hx)
    have hwgood : ∀ x ∈ [w], x ≠ [] := by
      intro x hx
      simp only [List.mem_singleton] at hx
      subst hx
      exact hw.1
    simp only [chunkLoop]
    split
    · -- the word fits in the current buffer
      by_cases hc : gcur = []
      · subst hc
        rw [show sjoin ([] : List (List Char)) = [] from rfl, if_pos rfl]
        obtain ⟨gss', h1, h2, h3⟩ := ih gss [w] hws' hgss hwgood
        refine ⟨gss', ?_, ?_, h3⟩
        · rw [← h1]; rfl
        · rw [h2]; simp
      · have hne : sjoin gcur ≠ [] := sjoin_ne_nil gcur hc hgcur
        rw [if_neg hne]
        have hjoin : sjoin gcur ++ ' ' :: w = sjoin (gcur ++ [w]) := by
          rw [sjoin_append gcur [w] hc (by simp)]
          rfl
        have hxg : ∀ x ∈ gcur ++ [w], x ≠ [] := by
          intro x hx
          rcases List.mem_append.mp hx with h4 | h4
          · exact hgcur x h4
          · simp only [List.mem_singleton] at h4
            subst h4
            exact hw.1
        obtain ⟨gss', h1, h2, h3⟩ := ih gss (gcur ++ [w]) hws' hgss hxg
        refine ⟨gss', ?_, ?_, h3⟩
        · rw [← h1, hjoin]
        · rw [h2]; simp
    · -- the word does not fit: flush the buffer
      by_cases hc : gcur = []
      · subst hc
        rw [show sjoin ([] : List (List Char)) = [] from rfl, if_pos rfl]
        obtain ⟨gss', h1, h2, h3⟩ := ih gss [w] hws' hgss hwgood
        refine ⟨gss', ?_, ?_, h3⟩
        · rw [← h1]
          rw [show sjoin [w] = w from rfl]
        · rw [h2]; simp
      · have hne : sjoin gcur ≠ [] := sjoin_ne_nil gcur hc hgcur
        rw [if_neg hne]
        have hmap : (gss.map sjoin) ++ [sjoin gcur] = (gss ++ [gcur]).map sjoin := by
          simp
        rw [hmap]
        have hg2 : ∀ g ∈ gss ++ [gcur], g ≠ [] ∧ ∀ x ∈ g, x ≠ [] := by
          intro g hg
          rcases List.mem_append.mp hg with h4 | h4
          · exact hgss g h4
          · simp only [List.mem_singleton] at h4
            subst h4
            exact ⟨hc, hgcur⟩
        obtain ⟨gss', h1, h2, h3⟩ := ih (gss ++ [gcur]) [w] hws' hg2 hwgood
        refine ⟨gss', ?_, ?_, h3⟩
        · rw [← h1]
          rw [show sjoin [w] = w from rfl]
        · rw [h2]; simp

theorem chunkLoop_size (M : Nat) (allW : List (List Char)) :
    ∀ (ws : List (List Char)) (chunks : List (List Char)) (cur : List Char),
      (∀ w ∈ ws, w ∈ allW) →
      (∀ c ∈ chunks, c.length ≤ M ∨ (c ∈ allW ∧ M < c.length)) →
      (cur = [] ∨ cur.length ≤ M ∨ (cur ∈ allW ∧ M < cur.length)) →
      ∀ c ∈ chunkLoop M chunks cur ws, c.length ≤ M ∨ (c ∈ allW ∧ M < c.length) := by
  intro ws
  induction ws with
  | nil =>
    intro chunks cur _ hch hcur c hc
    simp only [chunkLoop] at hc
    split at hc
    · exact hch c hc
    · rename_i hne
      rcases List.mem_append.mp hc with h1 | h1
      · exact hch c h1
      · simp only [List.mem_singleton] at h1
        subst h1
        rcases hcur with rfl | h | h
        · exact absurd rfl hne
        · exact Or.inl h
        · exact Or.inr h
  | cons w ws' ih =>
    intro chunks cur hws hch hcur c hc
    simp only [chunkLoop] at hc
    split at hc
    · rename_i hfit
      refine ih _ _ (fun x hx => hws x (List.mem_cons_of_mem w hx)) hch ?_ c hc
      right; left
      split
      · omega
      · simp only [List.length_append, List.length_cons]
        omega
    · refine ih _ _ (fun x hx => hws x (List.mem_cons_of_mem w hx)) ?_ ?_ c hc
      · split
        · exact hch
        · rename_i hne
          intro x hx
          rcases List.mem_append.mp hx with h1 | h1
          · exact hch x h1
          · simp only [List.mem_singleton] at h1
            subst h1
            rcases hcur with rfl | h | h
            · exact absurd rfl hne
            · exact Or.inl h
            · exact Or.inr h
      · by_cases hwM : w.length ≤ M
        · right; left; exact hwM
        · right; right
          exact ⟨hws w (List.mem_cons_self _ _), by omega⟩

/-!  A response whose cleaned text has no newline-`##`-whitespace occurrence
is never split, so the merge loop contributes none of its sections. -/

theorem splitHH_no_split :
    ∀ (s : List Char), containsNlHH s = false → splitHH s = [s] := by
  intro s
  induction s with
  | nil => intro _; rfl
  | cons c rest ih =>
    intro h
    simp only [containsNlHH, Bool.or_eq_false_iff] at h
    simp only [splitHH, h.1, Bool.false_eq_true, if_false]
    rw [ih h.2]

theorem mergeStep_drop (m r : List Char)
    (h1 : containsSub "##".toList (clean_llm_response r) = true)
    (h2 : containsNlHH (clean_llm_response r) = false) :
    mergeStep m r = m := by
  simp only [mergeStep, h1, if_true]
  rw [splitHH_no_split _ h2]
  rfl

theorem merge_responses_drop (r0 : List Char) (xs ys : List (List Char))
    (r : List Char)
    (h1 : containsSub "##".toList (clean_llm_response r) = true)
    (h2 : containsNlHH (clean_llm_response r) = false) :
    merge_responses (r0 :: (xs ++ r :: ys)) = merge_responses (r0 :: (xs ++ ys)) := by
  have hfold : (xs ++ r :: ys).foldl mergeStep (clean_llm_response r0) =
      (xs ++ ys).foldl mergeStep (clean_llm_response r0) := by
    rw [List.foldl_append, List.foldl_cons, mergeStep_drop _ r h1 h2, ← List.foldl_append]
  show fix_markdown_formatting ((xs ++ r :: ys).foldl mergeStep (clean_llm_response r0)) =
      fix_markdown_formatting ((xs ++ ys).foldl mergeStep (clean_llm_response r0))
  rw [hfold]

/-!  One application of the blank-line pass eliminates every run of three
or more consecutive newlines: pattern 4 collapses any such run present in
its input, its replacement is followed by a non-newline character, and the
unmatched newlines it copies are followed by fewer than two further
newlines, so the output never contains three newlines in a row.  Patterns
1 and 3 run earlier and only insert a newline where the lookahead
guarantees the next character is not a newline, so the blank-line pass
(which runs last) bounds the whole repair pass. -/

theorem lastNlIdx_none_iff :
    ∀ l : List Char, lastNlIdx l = none ↔ ('\n' : Char) ∉ l := by
  intro l
  induction l with
  | nil => simp [lastNlIdx]
  | cons c rest ih =>
    constructor
    · intro h
      simp only [lastNlIdx] at h
      cases hr : lastNlIdx rest with
      | some j => rw [hr] at h; simp at h
      | none =>
        rw [hr] at h
        by_cases hc : c = '\n'
        · rw [if_pos hc] at h; simp at h
        · intro hmem
          rcases List.mem_cons.mp hmem with h1 | h1
          · exact hc h1.symm
          · exact (ih.mp hr) h1
    · intro h
      simp only [lastNlIdx]
      have h1 : lastNlIdx rest = none :=
        ih.mpr (fun hm => h (List.mem_cons_of_mem c hm))
      rw [h1]
      have hc : ¬ (c = '\n') := fun e => h (by rw [e]; exact List.mem_cons_self _ _)
      simp [hc]

theorem blankMatchLen_some_of_two {u : List Char}
    (h : 2 ≤ ((u.takeWhile isPySpace).count '\n')) :
    ∃ L, blankMatchLen u = some L := by
  simp only [blankMatchLen]
  rw [if_pos h]
  cases hr : lastNlIdx (u.takeWhile isPySpace) with
  | some i => exact ⟨i + 1, by simp⟩
  | none =>
    exfalso
    have hmem : ('\n' : Char) ∉ u.takeWhile isPySpace := (lastNlIdx_none_iff _).mp hr
    have hc := List.count_eq_zero.mpr hmem
    omega

theorem blankMatchLen_none_nl {v : List Char}
    (h : blankMatchLen ('\n' :: v) = none) :
    blankMatchLen v = none ∧ v.head? ≠ some '\n' := by
  have hnl : isPySpace '\n' = true := by decide
  have hW : ('\n' :: v).takeWhile isPySpace = '\n' :: v.takeWhile isPySpace := by
    simp [List.takeWhile_cons, hnl]
  have hcount : ¬ 2 ≤ (('\n' :: v).takeWhile isPySpace).count '\n' := by
    intro hc
    obtain ⟨L, hL⟩ := blankMatchLen_some_of_two hc
    rw [hL] at h
    simp at h
  rw [hW, List.count_cons_self] at hcount
  have hvcount : (v.takeWhile isPySpace).count '\n' = 0 := by omega
  constructor
  · simp only [blankMatchLen]
    rw [if_neg (by omega)]
  · intro hv
    cases v with
    | nil => simp at hv
    | cons c w =>
      simp only [List.head?_cons, Option.some.injEq] at hv
      subst hv
      have hW2 : ('\n' :: w).takeWhile isPySpace = '\n' :: w.takeWhile isPySpace := by
        simp [List.takeWhile_cons, hnl]
      rw [hW2, List.count_cons_self] at hvcount
      omega

theorem lastNlIdx_last :
    ∀ (l : List Char) (i : Nat), lastNlIdx l = some i →
      ∀ c ∈ l.drop (i + 1), c ≠ '\n' := by
  intro l
  induction l with
  | nil => intro i h; simp [lastNlIdx] at h
  | cons a rest ih =>
    intro i h c hc
    simp only [lastNlIdx] at h
    cases hr : lastNlIdx rest with
    | some j =>
      rw [hr] at h
      simp only [Option.some.injEq] at h
      subst h
      rw [List.drop_succ_cons] at hc
      exact ih j hr c hc
    | none =>
      rw [hr] at h
      by_cases ha : a = '\n'
      · rw [if_pos ha] at h
        simp only [Option.some.injEq] at h
        subst h
        rw [List.drop_succ_cons, List.drop_zero] at hc
        have hmem : ('\n' : Char) ∉ rest := (lastNlIdx_none_iff rest).mp hr
        intro he
        subst he
        exact hmem hc
      · rw [if_neg ha] at h
        simp at h

theorem drop_append_of_le_len {α : Type} :
    ∀ (n : Nat) (l₁ l₂ : List α), n ≤ l₁.length → (l₁ ++ l₂).drop n = l₁.drop n ++ l₂ := by
  intro n l₁
  induction l₁ generalizing n with
  | nil =>
    intro l₂ h
    simp only [List.length_nil, Nat.le_zero] at h
    subst h
    rfl
  | cons a l ih =>
    intro l₂ h
    cases n with
    | zero => rfl
    | succ m =>
      simp only [List.cons_append, List.drop_succ_cons]
      exact ih m l₂ (by simpa using h)

theorem head?_dropWhile_not (p : Char → Bool) :
    ∀ (u : List Char) (c : Char), (u.dropWhile p).head? = some c → p c = false := by
  intro u
  induction u with
  | nil => intro c h; simp [List.dropWhile] at h
  | cons a rest ih =>
    intro c h
    rw [List.dropWhile_cons] at h
    split at h
    · exact ih c h
    · rename_i hp
      simp only [List.head?_cons, Option.some.injEq] at h
      rw [← h]
      cases hpa : p a
      · rfl
      · exact absurd hpa hp

theorem blankMatchLen_drop_head {u : List Char} {L : Nat}
    (h : blankMatchLen u = some L) : (u.drop L).head? ≠ some '\n' := by
  simp only [blankMatchLen] at h
  split at h
  · cases hr : lastNlIdx (u.takeWhile isPySpace) with
    | none => rw [hr] at h; simp at h
    | some i =>
      rw [hr] at h
      simp only [Option.map_some', Option.some.injEq] at h
      subst h
      have hilt : i < (u.takeWhile isPySpace).length := lastNlIdx_lt_length _ i hr
      have hu : u.takeWhile isPySpace ++ u.dropWhile isPySpace = u :=
        List.takeWhile_append_dropWhile isPySpace u
      intro hhead
      rw [← hu, drop_append_of_le_len (i + 1) _ _ (by omega)] at hhead
      cases hW : (u.takeWhile isPySpace).drop (i + 1) with
      | nil =>
        rw [hW, List.nil_append] at hhead
        have hws := head?_dropWhile_not isPySpace u '\n' hhead
        exact absurd hws (by decide)
      | cons d rest =>
        rw [hW] at hhead
        simp only [List.cons_append, List.head?_cons, Option.some.injEq] at hhead
        have hd : d ∈ (u.takeWhile isPySpace).drop (i + 1) := by
          rw [hW]
          exact List.mem_cons_self _ _
        exact lastNlIdx_last _ i hr d hd hhead
  · simp at h

theorem prefix_single_head {l : List Char} {c : Char} (h : [c] <+: l) :
    l.head? = some c := by
  cases l with
  | nil => simp at h
  | cons a rest =>
    rw [List.cons_prefix_cons] at h
    rw [List.head?_cons, h.1]

theorem fixBlankLinesAux_no_triple :
    ∀ (fuel : Nat) (s : List Char), s.length ≤ fuel →
      ¬ ('\n' :: '\n' :: '\n' :: ([] : List Char)) <:+: fixBlankLinesAux fuel s := by
  intro fuel
  induction fuel with
  | zero =>
    intro s hs
    simp only [Nat.le_zero, List.length_eq_zero] at hs
    subst hs
    simp [fixBlankLinesAux_nil]
  | succ fuel ih =>
    intro s hs
    match s with
    | [] => simp [fixBlankLinesAux_nil]
    | c :: u =>
      have hulen : u.length ≤ fuel := by
        simp only [List.length_cons] at hs
        omega
      by_cases hc : c = '\n'
      · subst hc
        cases hm : blankMatchLen u with
        | some L =>
          have hred : fixBlankLinesAux (fuel + 1) ('\n' :: u) =
              '\n' :: '\n' :: fixBlankLinesAux fuel (u.drop L) := by
            rw [fixBlankLinesAux_nl, hm]
          rw [hred]
          have hdlen : (u.drop L).length ≤ fuel := by
            have := List.length_drop L u
            omega
          intro htrip
          rw [List.infix_cons_iff] at htrip
          rcases htrip with hpre | htrip
          · rw [List.cons_prefix_cons] at hpre
            have hpre2 := hpre.2
            rw [List.cons_prefix_cons] at hpre2
            have hhead := prefix_single_head hpre2.2
            rw [fixBlankLinesAux_head?] at hhead
            exact blankMatchLen_drop_head hm hhead
          rw [List.infix_cons_iff] at htrip
          rcases htrip with hpre | htrip
          · rw [List.cons_prefix_cons] at hpre
            have hpre2 := hpre.2
            have hhead : (fixBlankLinesAux fuel (u.drop L)).head? = some '\n' := by
              cases hout : fixBlankLinesAux fuel (u.drop L) with
              | nil => rw [hout] at hpre2; simp at hpre2
              | cons d rest =>
                rw [hout] at hpre2
                rw [List.cons_prefix_cons] at hpre2
                rw [List.head?_cons, hpre2.1]
            rw [fixBlankLinesAux_head?] at hhead
            exact blankMatchLen_drop_head hm hhead
          · exact ih (u.drop L) hdlen htrip
        | none =>
          have hred : fixBlankLinesAux (fuel + 1) ('\n' :: u) =
              '\n' :: fixBlankLinesAux fuel u := by
            rw [fixBlankLinesAux_nl, hm]
          rw [hred]
          intro htrip
          rw [List.infix_cons_iff] at htrip
          rcases htrip with hpre | htrip
          · rw [List.cons_prefix_cons] at hpre
            have hpre2 := hpre.2
            have hh1 : (fixBlankLinesAux fuel u).head? = some '\n' := by
              cases hout : fixBlankLinesAux fuel u with
              | nil => rw [hout] at hpre2; simp at hpre2
              | cons d rest =>
                rw [hout] at hpre2
                rw [List.cons_prefix_cons] at hpre2
                rw [List.head?_cons, hpre2.1]
            rw [fixBlankLinesAux_head?] at hh1
            cases u with
            | nil => simp at hh1
            | cons d v =>
              simp only [List.head?_cons, Option.some.injEq] at hh1
              subst hh1
              obtain ⟨hv_none, hv_head⟩ := blankMatchLen_none_nl hm
              cases fuel with
              | zero => simp at hulen
              | succ f =>
                have hred2 : fixBlankLinesAux (f + 1) ('\n' :: v) =
                    '\n' :: fixBlankLinesAux f v := by
                  rw [fixBlankLinesAux_nl, hv_none]
                rw [hred2] at hpre2
                rw [List.cons_prefix_cons] at hpre2
                have hh2 := prefix_single_head hpre2.2
                rw [fixBlankLinesAux_head?] at hh2
                exact hv_head hh2
          · exact ih u hulen htrip
      · rw [fixBlankLinesAux_cons_ne fuel c u hc]
        intro htrip
        rw [List.infix_cons_iff] at htrip
        rcases htrip with hpre | htrip
        · rw [List.cons_prefix_cons] at hpre
          exact hc hpre.1.symm
        · exact ih u hulen htrip

theorem fix_markdown_formatting_no_triple (t : List Char) :
    ¬ ('\n' :: '\n' :: '\n' :: ([] : List Char)) <:+: fix_markdown_formatting t := by
  unfold fix_markdown_formatting fixBlankLines
  exact fixBlankLinesAux_no_triple _ _ (Nat.le_refl _)


/-!  The claims. -/

/-- Claim C1 (code bug evidence): merging the spec scenario
`["# Title\nBody1", "## Extra\nBody2"]` silently drops the second response:
the merged body is exactly `"# Title\nBody1"` and contains no `"## Extra"`
section.  The code's comment says it skips "the first empty split", but
with a zero-width-lookahead split the first element is the whole cleaned
response, which here is non-empty and is discarded. -/
theorem C1_merge_drops_second_response :
    merge_responses ["# Title\nBody1".toList, "## Extra\nBody2".toList] =
      "# Title\nBody1".toList ∧
    containsSub "## Extra".toList
      (merge_responses ["# Title\nBody1".toList, "## Extra\nBody2".toList]) = false := by
  decide

/-- Claim C2 counterexample: for the single response `"## Only"` the
generated document begins with two heading markers, not with a level-1
heading (single marker followed by whitespace), and no synthesized title is
prepended even though the body does not start with a level-1 heading. -/
theorem C2_counterexample :
    startsWithLevel1Heading
      (generate_readme ["## Only".toList] "proj".toList "TS".toList) = false := by
  decide

/-- Claim C2 (amended): the text returned by `generate_readme` always
starts with the character `#` — though not necessarily with a well-formed
level-1 heading — and the synthesized title line built from the project
name is prepended exactly when the merged body does not already start with
`#`. -/
theorem C2_generate_starts_with_hash (rs : List (List Char)) (name ts : List Char) :
    (generate_readme rs name ts).head? = some '#' ∧
    ((mainContentOf rs).head? ≠ some '#' →
      generate_readme rs name ts =
        fix_markdown_formatting
          ((('#' :: ' ' :: name) ++ ('\n' :: '\n' :: mainContentOf rs)) ++
            footerFor ts)) := by
  refine ⟨generate_readme_head? rs name ts, ?_⟩
  intro h
  simp only [generate_readme, if_neg h]

/-- Witness for C2 at a concrete input whose body does not start with
`#`. -/
theorem C2_witness :
    (generate_readme ["hello".toList] "P".toList "TS".toList).head? = some '#' ∧
    generate_readme ["hello".toList] "P".toList "TS".toList =
      fix_markdown_formatting
        ((('#' :: ' ' :: "P".toList) ++
          ('\n' :: '\n' :: mainContentOf ["hello".toList])) ++ footerFor "TS".toList) :=
  ⟨(C2_generate_starts_with_hash ["hello".toList] "P".toList "TS".toList).1,
   (C2_generate_starts_with_hash ["hello".toList] "P".toList "TS".toList).2 (by decide)⟩

/-- Claim C3: validating the output of `generate_readme` never reports the
missing-main-title issue, for every list of responses, project name and
timestamp. -/
theorem C3_no_missing_title (rs : List (List Char)) (name ts : List Char) :
    missingTitleMsg ∉ validate_markdown (generate_readme rs name ts) := by
  intro hmem
  have hhead := generate_readme_head? rs name ts
  have hstrip : pyStrip (generate_readme rs name ts) ≠ [] :=
    pyStrip_ne_nil_of_head hhead (by decide)
  unfold validate_markdown at hmem
  rw [if_neg hstrip, hhead, if_pos rfl, List.nil_append] at hmem
  exact missingTitleMsg_not_mem_lineIssuesAux _ 1 hmem

/-- Claim C4 counterexample: the repair pass alters characters inside a
fenced code block — the blank-line run inside `"```\na\n\n\n\nb\n```"` is
collapsed, so content strictly between the opening and closing fence lines
changes. -/
theorem C4_counterexample :
    fix_markdown_formatting "```\na\n\n\n\nb\n```".toList =
      "```\na\n\nb\n```".toList ∧
    fix_markdown_formatting "```\na\n\n\n\nb\n```".toList ≠
      "```\na\n\n\n\nb\n```".toList := by
  decide

/-- Claim C4 (amended): the repair pass may alter whitespace anywhere,
including inside fenced code blocks, but it preserves the sequence of
non-whitespace characters exactly; in particular it never inserts a
backtick, so it never invents a closing fence that was not present in the
input. -/
theorem C4_repair_preserves_non_whitespace (t : List Char) :
    (fix_markdown_formatting t).filter notWS = t.filter notWS :=
  fix_markdown_formatting_filter t

/-- Claim C5 counterexample: the repair pass is not idempotent — on
`"\n# A x\n# B y\nc"` the first application repairs only the first heading
(its match consumes the newline preceding the second heading), and a second
application changes the text again. -/
theorem C5_counterexample :
    fix_markdown_formatting (fix_markdown_formatting "\n# A x\n# B y\nc".toList) ≠
      fix_markdown_formatting "\n# A x\n# B y\nc".toList := by
  decide

/-- A run of three or more newlines between two blocks is collapsed down to
exactly one blank line by a single repair application. -/
theorem fix_collapse_run (m : Nat) :
    fix_markdown_formatting ("a".toList ++ List.replicate (m + 3) '\n' ++ "b".toList) =
      "a\n\nb".toList := by
  have hs : "a".toList ++ List.replicate (m + 3) '\n' ++ "b".toList =
      'a' :: (List.replicate (m + 3) '\n' ++ ['b']) := by simp
  rw [hs]
  unfold fix_markdown_formatting fixLists
  have hnohash : ('#' : Char) ∉ 'a' :: (List.replicate (m + 3) '\n' ++ ['b']) := by
    intro h
    rcases List.mem_cons.mp h with h1 | h2
    · exact absurd h1 (by decide)
    rcases List.mem_append.mp h2 with h3 | h4
    · exact absurd (List.eq_of_mem_replicate h3) (by decide)
    · rcases List.mem_cons.mp h4 with h5 | h5
      · exact absurd h5 (by decide)
      · simp at h5
  have hnotick : ('`' : Char) ∉ 'a' :: (List.replicate (m + 3) '\n' ++ ['b']) := by
    intro h
    rcases List.mem_cons.mp h with h1 | h2
    · exact absurd h1 (by decide)
    rcases List.mem_append.mp h2 with h3 | h4
    · exact absurd (List.eq_of_mem_replicate h3) (by decide)
    · rcases List.mem_cons.mp h4 with h5 | h5
      · exact absurd h5 (by decide)
      · simp at h5
  rw [show fixHeadings ('a' :: (List.replicate (m + 3) '\n' ++ ['b'])) =
      'a' :: (List.replicate (m + 3) '\n' ++ ['b']) from by
    unfold fixHeadings
    exact fixHeadingsAux_no_hash _ _ hnohash]
  rw [show fixCodeBlocks ('a' :: (List.replicate (m + 3) '\n' ++ ['b'])) =
      'a' :: (List.replicate (m + 3) '\n' ++ ['b']) from by
    unfold fixCodeBlocks
    exact fixCodeBlocksAux_no_tick _ _ hnotick]
  exact fixBlank_collapse m

/-- Claim C5 (amended): the repair pass is not idempotent in general, but a
single application does collapse every run of three or more consecutive
newlines down to at most one blank line — the repaired output of any
document contains no three consecutive newlines anywhere — and a run of
three or more newlines between two blocks becomes exactly one blank
line. -/
theorem C5_blank_collapse :
    (∀ t : List Char,
      ¬ ('\n' :: '\n' :: '\n' :: ([] : List Char)) <:+: fix_markdown_formatting t) ∧
    (∀ m : Nat,
      fix_markdown_formatting
          ("a".toList ++ List.replicate (m + 3) '\n' ++ "b".toList) =
        "a\n\nb".toList) :=
  ⟨fix_markdown_formatting_no_triple, fix_collapse_run⟩

/-- Claim C6 counterexample: a document whose triple-backtick fences all
come in matched opener/closer pairs still receives an unclosed-code-block
issue — the closing fence on line 4 of `"# T\n```\ncode\n```"` has no later
bare fence line, so it is flagged. -/
theorem C6_counterexample :
    unclosedMsg 4 ∈ validate_markdown "# T\n```\ncode\n```".toList := by
  decide

/-- Claim C6 (amended): `validate_markdown` reports "unclosed code block"
for line `k+1` exactly when that line strips to a bare triple-backtick and
no strictly later line does; consequently the last fence line of any
document containing a bare fence — including one whose fences all come in
matched pairs — is always flagged, and `"# T\n```\ncode"` receives the
issue at line 2. -/
theorem C6_unclosed_iff (content : List Char) (k : Nat) :
    unclosedMsg (k + 1) ∈ validate_markdown content ↔
      (k < (pySplitNl content).length ∧
        isBareFence ((pySplitNl content).getD k []) = true ∧
        ∀ l ∈ (pySplitNl content).drop (k + 1), isBareFence l = false) :=
  unclosed_validate_iff content k

/-- Claim C7 counterexample: chunking the empty prompt with bound 3 yields
the one-element sequence containing the empty string, not the empty
sequence. -/
theorem C7_counterexample :
    chunk_prompt 3 [] ≠ ([] : List (List Char)) ∧ chunk_prompt 3 [] = [[]] := by
  decide

/-- Claim C7 (amended): for every bound, chunking the empty prompt yields
the one-element sequence containing the empty string — the short-input fast
path returns the prompt itself as the only chunk. -/
theorem C7_empty_prompt (M : Nat) : chunk_prompt M [] = [[]] := by
  unfold chunk_prompt
  rw [if_pos (by simp)]

/-- Claim C8: for every prompt and positive bound, joining the chunks with
single spaces and splitting on whitespace yields exactly the word sequence
of the original prompt (order and multiplicity preserved). -/
theorem C8_chunks_preserve_words (P : List Char) (M : Nat) (hM : 0 < M) :
    pySplitWs (sjoin (chunk_prompt M P)) = pySplitWs P := by
  unfold chunk_prompt
  by_cases hlen : P.length ≤ M
  · rw [if_pos hlen]
    rfl
  · rw [if_neg hlen]
    have hgood : ∀ w ∈ pySplitWs P, w ≠ [] ∧ ∀ c ∈ w, isPySpace c = false :=
      fun w hw => wordsAux_good P [] (by simp) w hw
    obtain ⟨gss', h1, h2, h3⟩ :=
      chunkLoop_words M (pySplitWs P) [] [] hgood (by simp) (by simp)
    rw [show List.map sjoin ([] : List (List (List Char))) = [] from rfl] at h1
    rw [show sjoin ([] : List (List Char)) = [] from rfl] at h1
    rw [h1]
    rw [sjoin_map_sjoin gss' (fun g hg => (h3 g hg).1)]
    have h2' : List.flatten gss' = pySplitWs P := by
      rw [h2]; simp
    have hall : ∀ w ∈ List.flatten gss', w ≠ [] ∧ ∀ c ∈ w, isPySpace c = false := by
      rw [h2']; exact hgood
    rw [pySplitWs_sjoin (List.flatten gss') hall, h2']

/-- Witness for C8 at the spec scenario `chunk("a b c d e", 3)`. -/
theorem C8_witness :
    0 < 3 ∧ pySplitWs (sjoin (chunk_prompt 3 "a b c d e".toList)) =
      pySplitWs "a b c d e".toList :=
  ⟨by decide, C8_chunks_preserve_words "a b c d e".toList 3 (by decide)⟩

/-- Claim C9: for every prompt and positive bound, every chunk either has
length at most the bound or is a single word of the prompt whose own length
exceeds the bound. -/
theorem C9_chunk_size_bound (P : List Char) (M : Nat) (hM : 0 < M) :
    ∀ c ∈ chunk_prompt M P, c.length ≤ M ∨ (c ∈ pySplitWs P ∧ M < c.length) := by
  intro c hc
  unfold chunk_prompt at hc
  by_cases hlen : P.length ≤ M
  · rw [if_pos hlen] at hc
    simp only [List.mem_singleton] at hc
    subst hc
    exact Or.inl hlen
  · rw [if_neg hlen] at hc
    exact chunkLoop_size M (pySplitWs P) (pySplitWs P) [] []
      (fun w hw => hw) (by simp) (Or.inl rfl) c hc

/-- Witness for C9: with bound 3, the prompt `"hello a"` produces the
oversized single-word chunk `"hello"`. -/
theorem C9_witness :
    0 < 3 ∧ ("hello".toList.length ≤ 3 ∨
      ("hello".toList ∈ pySplitWs "hello a".toList ∧ 3 < "hello".toList.length)) :=
  ⟨by decide,
   C9_chunk_size_bound "hello a".toList 3 (by decide) "hello".toList (by decide)⟩

/-- Claim C10 counterexample: the cleaned response `"x\n##\nmore"` contains
`"##"` and has no line beginning with two heading markers followed by a
whitespace character (its lines are `"x"`, `"##"`, `"more"`), yet it does
contribute to the merge: the split point fires on the newline after `"##"`,
so the response is not dropped. -/
theorem C10_counterexample :
    containsSub "##".toList (clean_llm_response "x\n##\nmore".toList) = true ∧
    (pySplitNl (clean_llm_response "x\n##\nmore".toList)).all
      (fun l => !lineBeginsHHspace l) = true ∧
    merge_responses ["# A".toList, "x\n##\nmore".toList] ≠
      merge_responses ["# A".toList] := by
  decide

/-- Claim C10 (amended): in a merge of two or more responses, every
response after the first whose cleaned text contains `"##"` but contains no
occurrence of a newline immediately followed by two heading markers and a
whitespace character contributes nothing: the merged result equals the
merge with that response removed. -/
theorem C10_silent_drop (r0 : List Char) (xs ys : List (List Char)) (r : List Char)
    (h1 : containsSub "##".toList (clean_llm_response r) = true)
    (h2 : containsNlHH (clean_llm_response r) = false) :
    merge_responses (r0 :: (xs ++ r :: ys)) = merge_responses (r0 :: (xs ++ ys)) :=
  merge_responses_drop r0 xs ys r h1 h2

/-- Witness for C10 at a concrete dropped response. -/
theorem C10_witness :
    containsSub "##".toList (clean_llm_response "x ## y".toList) = true ∧
    containsNlHH (clean_llm_response "x ## y".toList) = false ∧
    merge_responses ["# A".toList, "x ## y".toList] = merge_responses ["# A".toList] :=
  ⟨by decide, by decide,
   C10_silent_drop "# A".toList [] [] "x ## y".toList (by decide) (by decide)⟩
